import Mathlib

/-!
# Verification of the helix-tools/sdk-go dataset pipeline

Shallow embedding, translated from the Go sources, of the parts of the
`helix-tools/sdk-go` repository exercised by the specification claims:

* the envelope-encryption codec (`producer.encryptData`, `consumer.decryptData`);
* the gzip compression wrappers (`producer.compressData`, `consumer.decompressData`);
* dataset identity derivation (`slugify`, `generateDatasetID`);
* the upload orchestration of `Producer.UploadDataset` (POST-first flow) and the
  allow-list filtering of `Producer.updateDataset`;
* the streaming NDJSON analyzer (`analyzeData`, `getFieldStatus`, `isEmptyValue`,
  `schemaBuilder`, `roundTo2Decimals`).

Bytes are modelled as `Nat` values (with `% 256` where Go truncates), byte strings
as `List Nat`, `float64` arithmetic over percentages as exact `ℚ` arithmetic, and
external collaborators (AWS KMS wrap/unwrap, the AES-GCM primitive from Go's
`crypto/cipher`, the DEFLATE coder from `compress/gzip`, the catalog HTTP API and
the wall clock) as explicit function parameters, since their code is not part of
this repository.
-/

namespace Helix

/-! ## Byte-level helpers

`binary.Write(&buf, binary.BigEndian, uint32(n))` writes the four big-endian
bytes of `n` truncated to 32 bits; `binary.Read` of a `uint32` reads them back.
-/

/-- Big-endian 4-byte encoding of `uint32(n)` (Go truncates `n` modulo `2^32`). -/
def be32 (n : Nat) : List Nat :=
  [n / 2 ^ 24 % 256, n / 2 ^ 16 % 256, n / 2 ^ 8 % 256, n % 256]

/-- Value of a 4-byte big-endian prefix, as read by `binary.Read(..., &keyLen)`. -/
def be32val (bs : List Nat) : Nat :=
  match bs with
  | b0 :: b1 :: b2 :: b3 :: _ => b0 * 2 ^ 24 + b1 * 2 ^ 16 + b2 * 2 ^ 8 + b3
  | _ => 0

theorem be32_length (n : Nat) : (be32 n).length = 4 := rfl

theorem be32val_be32 {n : Nat} (h : n < 2 ^ 32) (tail : List Nat) :
    be32val (be32 n ++ tail) = n := by
  simp only [be32, be32val, List.cons_append]
  omega

/-- One call `r.Read(b)` on Go's `bytes.Reader` positioned at `pos` over `data`,
filling a fresh zero-initialised buffer of length `n` (`make([]byte, n)`).
Go returns `io.EOF` when no bytes remain (modelled as `none`, which
`decryptData` turns into an error); otherwise it copies `min n avail` bytes into
the front of the buffer — possibly FEWER than `n`, without error, leaving the
zero padding — and advances the position. -/
def readFill (data : List Nat) (pos n : Nat) : Option (List Nat × Nat) :=
  if data.length ≤ pos then none
  else
    let m := min n (data.length - pos)
    some ((data.drop pos).take n ++ List.replicate (n - m) 0, pos + m)

/-- When `n` bytes really are available, `readFill` returns exactly the next
`n` bytes with no zero padding. -/
theorem readFill_exact {data : List Nat} {pos n : Nat}
    (hpos : pos < data.length) (hn : n ≤ data.length - pos) :
    readFill data pos n = some ((data.drop pos).take n, pos + n) := by
  unfold readFill
  rw [if_neg (by omega)]
  have hm : min n (data.length - pos) = n := by omega
  simp [hm]

/-! ## Envelope cipher

`producer.encryptData` (producer/producer.go:260-326) and
`consumer.decryptData` (consumer/consumer.go:968-1031).

The random 32-byte data key and 16-byte IV (`rand.Read`), the KMS wrap/unwrap
calls (`kms.Encrypt` / `kms.Decrypt`) and the AES-GCM primitive
(`cipher.NewGCMWithNonceSize(block, 16)` with `Seal`/`Open`) are external
collaborators, passed in as parameters:

* `wrap key` models `kms.Encrypt` (`none` = KMS error);
* `unwrap blob` models `kms.Decrypt` (`none` = KMS error);
* `gcmSeal key iv data` models `aesGCM.Seal(nil, iv, data, nil)`, which
  returns `ciphertext ‖ tag` (for GCM the result has length `data.length + 16`);
* `gcmOpen key iv ct` models `aesGCM.Open(nil, iv, ct, nil)` (`none` =
  authentication failure / malformed input).
-/

/-- Model of `producer.encryptData`.  The fresh random `dataKey` (32 bytes in Go) and
`iv` (16 bytes in Go) are parameters because `rand.Read` is external.  Mirrors
the source: error when no KMS key is configured; seal; split off the 16-byte
trailing tag (`aesGCM.Overhead()`); wrap the data key; emit
`[4-byte BE length][wrappedKey][iv][authTag][ciphertext]`. -/
def encryptData (kmsKeyID : String) (wrap : List Nat → Option (List Nat))
    (gcmSeal : List Nat → List Nat → List Nat → List Nat)
    (dataKey iv data : List Nat) : Option (List Nat) :=
  if kmsKeyID = "" then none
  else
    let sealed := gcmSeal dataKey iv data
    let authTagSize := 16
    let actualEncryptedData := sealed.take (sealed.length - authTagSize)
    let authTag := sealed.drop (sealed.length - authTagSize)
    match wrap dataKey with
    | none => none
    | some wrappedKey =>
        some (be32 wrappedKey.length ++ wrappedKey ++ iv ++ authTag ++
          actualEncryptedData)

/-- Model of `consumer.decryptData`.  Reads the 4-byte big-endian key length
(`binary.Read`, which fails on fewer than 4 bytes), then the wrapped key, the
16-byte IV and the 16-byte auth tag via `bytes.Reader.Read` (each errors only
at EOF; a short read zero-pads, faithfully modelled by `readFill`), treats the
remaining bytes as ciphertext (`io.ReadAll`, which cannot fail on a
`bytes.Reader`), unwraps the data key with KMS, rebuilds `ciphertext ‖ tag`
and opens it.  `aes.NewCipher` rejects key sizes other than 16/24/32. -/
def decryptData (unwrap : List Nat → Option (List Nat))
    (gcmOpen : List Nat → List Nat → List Nat → Option (List Nat))
    (data : List Nat) : Option (List Nat) :=
  if data.length < 4 then none
  else
    let keyLen := be32val data
    match readFill data 4 keyLen with
    | none => none
    | some (encryptedKey, p1) =>
      match readFill data p1 16 with
      | none => none
      | some (iv, p2) =>
        match readFill data p2 16 with
        | none => none
        | some (authTag, p3) =>
          let encryptedData := data.drop p3
          match unwrap encryptedKey with
          | none => none
          | some key =>
            if key.length = 16 ∨ key.length = 24 ∨ key.length = 32 then
              gcmOpen key iv (encryptedData ++ authTag)
            else none

/-- Parsing lemma: on a well-formed envelope
`be32 L ‖ w ‖ iv ‖ tag ‖ ct` with `|w| = L < 2^32`, `|iv| = 16`, `|tag| = 16`,
`decryptData` recovers exactly the four fields at their fixed offsets and
reduces to unwrapping `w` and opening `ct ‖ tag` under the recovered `iv`. -/
theorem decryptData_parse (unwrap : List Nat → Option (List Nat))
    (gcmOpen : List Nat → List Nat → List Nat → Option (List Nat))
    (w iv tag ct : List Nat) (hw : w.length < 2 ^ 32)
    (hiv : iv.length = 16) (htag : tag.length = 16) :
    decryptData unwrap gcmOpen (be32 w.length ++ w ++ iv ++ tag ++ ct) =
      match unwrap w with
      | none => none
      | some key =>
        if key.length = 16 ∨ key.length = 24 ∨ key.length = 32 then
          gcmOpen key iv (ct ++ tag)
        else none := by
  set env := be32 w.length ++ w ++ iv ++ tag ++ ct with henv
  have hlen : env.length = 4 + w.length + 16 + 16 + ct.length := by
    simp [henv, be32]; omega
  have hstep : ∀ k : Nat, env.drop (4 + k) = (w ++ iv ++ tag ++ ct).drop k := by
    intro k
    have : env = be32 w.length ++ (w ++ iv ++ tag ++ ct) := by
      simp [henv, List.append_assoc]
    rw [this, List.drop_append_eq_append_drop]
    simp [be32]
  unfold decryptData
  rw [if_neg (by omega)]
  have hval : be32val env = w.length := by
    have : env = be32 w.length ++ (w ++ iv ++ tag ++ ct) := by
      simp [henv, List.append_assoc]
    rw [this, be32val_be32 hw]
  rw [hval]
  dsimp only
  -- first read: the wrapped key
  have h1 : readFill env 4 w.length =
      some (w, 4 + w.length) := by
    have := @readFill_exact env 4 w.length (by omega) (by omega)
    rw [this]
    congr 1
    have hd : env.drop 4 = w ++ (iv ++ tag ++ ct) := by
      have := hstep 0
      simpa [List.append_assoc] using this
    rw [hd, List.take_left' rfl]
  rw [h1]
  dsimp only
  -- second read: the IV
  have h2 : readFill env (4 + w.length) 16 = some (iv, 4 + w.length + 16) := by
    have := @readFill_exact env (4 + w.length) 16 (by omega) (by omega)
    rw [this]
    congr 1
    have hd : env.drop (4 + w.length) = iv ++ (tag ++ ct) := by
      have := hstep w.length
      rw [this]
      rw [List.drop_append_eq_append_drop]
      simp
    rw [hd, List.take_left' hiv]
  rw [h2]
  dsimp only
  -- third read: the auth tag
  have h3 : readFill env (4 + w.length + 16) 16 =
      some (tag, 4 + w.length + 16 + 16) := by
    have := @readFill_exact env (4 + w.length + 16) 16 (by omega) (by omega)
    rw [this]
    congr 1
    have hd : env.drop (4 + w.length + 16) = tag ++ ct := by
      have h := hstep (w.length + 16)
      have h' : env.drop (4 + w.length + 16) = env.drop (4 + (w.length + 16)) := by
        ring_nf
      rw [h', h]
      rw [List.drop_append_eq_append_drop]
      rw [List.drop_append_eq_append_drop]
      simp [hiv]
    rw [hd, List.take_left' htag]
  rw [h3]
  dsimp only
  -- the remainder is the ciphertext
  have h4 : env.drop (4 + w.length + 16 + 16) = ct := by
    have h' : env.drop (4 + w.length + 16 + 16) =
        env.drop (4 + (w.length + 16 + 16)) := by ring_nf
    rw [h', hstep (w.length + 16 + 16)]
    have hassoc : w ++ iv ++ tag ++ ct = (w ++ iv ++ tag) ++ ct := by
      simp [List.append_assoc]
    rw [hassoc, List.drop_left' (by simp [hiv, htag])]
  rw [h4]

/-- Fail-closed, truncated header: fewer than 4 bytes always error out. -/
theorem decryptData_short (unwrap : List Nat → Option (List Nat))
    (gcmOpen : List Nat → List Nat → List Nat → Option (List Nat))
    (data : List Nat) (h : data.length < 4) :
    decryptData unwrap gcmOpen data = none := by
  unfold decryptData
  rw [if_pos h]

/-- Fail-closed, authentication failure: on a well-formed envelope whose tag
does not verify (`gcmOpen` returns `none`), `decryptData` returns no
plaintext bytes at all. -/
theorem decryptData_auth_failure (unwrap : List Nat → Option (List Nat))
    (gcmOpen : List Nat → List Nat → List Nat → Option (List Nat))
    (w iv tag ct key : List Nat) (hw : w.length < 2 ^ 32)
    (hiv : iv.length = 16) (htag : tag.length = 16)
    (hunwrap : unwrap w = some key)
    (hopen : gcmOpen key iv (ct ++ tag) = none) :
    decryptData unwrap gcmOpen (be32 w.length ++ w ++ iv ++ tag ++ ct)
      = none := by
  rw [decryptData_parse unwrap gcmOpen w iv tag ct hw hiv htag, hunwrap]
  dsimp only
  by_cases hk : key.length = 16 ∨ key.length = 24 ∨ key.length = 32
  · rw [if_pos hk]
    exact hopen
  · rw [if_neg hk]

/-- Unfolding lemma: with a configured KMS key and a successful wrap,
`encryptData` produces exactly the serialized container
`[4-byte BE length][wrappedKey][iv][authTag][ciphertext]`, where
`ciphertext ‖ authTag` is the GCM output split 16 bytes from the end. -/
theorem encryptData_eq (kmsKeyID : String) (wrap : List Nat → Option (List Nat))
    (gcmSeal : List Nat → List Nat → List Nat → List Nat)
    (dataKey iv data w : List Nat)
    (hkms : kmsKeyID ≠ "") (hwrap : wrap dataKey = some w) :
    encryptData kmsKeyID wrap gcmSeal dataKey iv data =
      some (be32 w.length ++ w ++ iv ++
        (gcmSeal dataKey iv data).drop ((gcmSeal dataKey iv data).length - 16) ++
        (gcmSeal dataKey iv data).take ((gcmSeal dataKey iv data).length - 16)) := by
  unfold encryptData
  rw [if_neg hkms, hwrap]

/-- C1: round-trip.  Under the contracts of the external collaborators —
`unwrap` inverts `wrap` on the data key, GCM `Open` inverts `Seal` for the same
key and IV, GCM output is plaintext plus a 16-byte tag, the data key is the
32 bytes Go generates, the IV the 16 bytes Go generates, and the wrapped-key
blob fits the 4-byte length prefix — decrypting the envelope produced by
encrypting any plaintext `data` (including `[]`) returns exactly `data`. -/
theorem decryptData_encryptData (kmsKeyID : String)
    (wrap unwrap : List Nat → Option (List Nat))
    (gcmSeal : List Nat → List Nat → List Nat → List Nat)
    (gcmOpen : List Nat → List Nat → List Nat → Option (List Nat))
    (dataKey iv data w : List Nat)
    (hkms : kmsKeyID ≠ "")
    (hkey : dataKey.length = 32) (hiv : iv.length = 16)
    (hwrap : wrap dataKey = some w) (hwlen : w.length < 2 ^ 32)
    (hunwrap : unwrap w = some dataKey)
    (hseal : (gcmSeal dataKey iv data).length = data.length + 16)
    (hopen : gcmOpen dataKey iv (gcmSeal dataKey iv data) = some data) :
    ∃ env, encryptData kmsKeyID wrap gcmSeal dataKey iv data = some env ∧
      decryptData unwrap gcmOpen env = some data := by
  set sealed := gcmSeal dataKey iv data with hsealed
  set ct := sealed.take (sealed.length - 16) with hct
  set tag := sealed.drop (sealed.length - 16) with htagdef
  have htag : tag.length = 16 := by
    rw [htagdef, List.length_drop]; omega
  refine ⟨be32 w.length ++ w ++ iv ++ tag ++ ct, ?_, ?_⟩
  · rw [encryptData_eq kmsKeyID wrap gcmSeal dataKey iv data w hkms hwrap]
  · rw [decryptData_parse unwrap gcmOpen w iv tag ct hwlen hiv htag, hunwrap]
    have hsplit : ct ++ tag = sealed := by
      rw [hct, htagdef, List.take_append_drop]
    dsimp only
    rw [if_pos (Or.inr (Or.inr hkey)), hsplit, hopen]

/-- C2: envelope layout.  (a) With a successful wrap, encryption serializes, in
this exact order, the 4-byte big-endian wrapped-key length, the wrapped key,
the 16-byte IV, the 16-byte authentication tag (the trailing 16 bytes of the
GCM output) and the ciphertext (all remaining bytes of the GCM output);
(b) decryption reads any container with those field sizes back in the same
order: it unwraps exactly the wrapped-key bytes and opens exactly
`ciphertext ‖ tag` under exactly the recovered 16-byte IV. -/
theorem envelope_format (kmsKeyID : String)
    (wrap unwrap : List Nat → Option (List Nat))
    (gcmSeal : List Nat → List Nat → List Nat → List Nat)
    (gcmOpen : List Nat → List Nat → List Nat → Option (List Nat))
    (dataKey iv data w : List Nat)
    (hkms : kmsKeyID ≠ "") (hwrap : wrap dataKey = some w)
    (hseal : (gcmSeal dataKey iv data).length = data.length + 16) :
    (∃ tag ct, tag.length = 16 ∧ ct.length = data.length ∧
      gcmSeal dataKey iv data = ct ++ tag ∧
      encryptData kmsKeyID wrap gcmSeal dataKey iv data =
        some (be32 w.length ++ w ++ iv ++ tag ++ ct)) ∧
    (∀ w' iv' tag' ct' : List Nat,
      w'.length < 2 ^ 32 → iv'.length = 16 → tag'.length = 16 →
      decryptData unwrap gcmOpen (be32 w'.length ++ w' ++ iv' ++ tag' ++ ct') =
        match unwrap w' with
        | none => none
        | some key =>
          if key.length = 16 ∨ key.length = 24 ∨ key.length = 32 then
            gcmOpen key iv' (ct' ++ tag')
          else none) := by
  constructor
  · set sealed := gcmSeal dataKey iv data with hsealed
    refine ⟨sealed.drop (sealed.length - 16), sealed.take (sealed.length - 16),
      ?_, ?_, ?_, ?_⟩
    · rw [List.length_drop]; omega
    · rw [List.length_take]; omega
    · rw [List.take_append_drop]
    · exact encryptData_eq kmsKeyID wrap gcmSeal dataKey iv data w hkms hwrap
  · intro w' iv' tag' ct' hw' hiv' htag'
    exact decryptData_parse unwrap gcmOpen w' iv' tag' ct' hw' hiv' htag'

/-- C10: size overhead.  With a successful wrap, the envelope's length is
exactly `4 + |wrappedKey| + 32 + |plaintext|`: the GCM ciphertext portion is
exactly as long as the plaintext, so encryption always adds 36 bytes plus the
wrapped key's length. -/
theorem encryptData_length (kmsKeyID : String)
    (wrap : List Nat → Option (List Nat))
    (gcmSeal : List Nat → List Nat → List Nat → List Nat)
    (dataKey iv data w : List Nat)
    (hkms : kmsKeyID ≠ "") (hwrap : wrap dataKey = some w) (hiv : iv.length = 16)
    (hseal : (gcmSeal dataKey iv data).length = data.length + 16) :
    ∃ env, encryptData kmsKeyID wrap gcmSeal dataKey iv data = some env ∧
      env.length = 4 + w.length + 32 + data.length ∧
      ((gcmSeal dataKey iv data).take ((gcmSeal dataKey iv data).length - 16)).length
        = data.length := by
  refine ⟨_, encryptData_eq kmsKeyID wrap gcmSeal dataKey iv data w hkms hwrap,
    ?_, ?_⟩
  · simp only [List.length_append, be32_length, List.length_drop,
      List.length_take, hiv]
    omega
  · rw [List.length_take]; omega

/-! ### Concrete collaborator instances used by the envelope witnesses

These instantiate the abstract KMS and AES-GCM parameters with simple total
functions that satisfy the collaborators' contracts, so the hypotheses of the
envelope theorems can be discharged on concrete data. -/

/-- Witness KMS wrap: prepend a marker byte. -/
def wrapPrepend (key : List Nat) : Option (List Nat) := some (0 :: key)

/-- Witness KMS unwrap: strip the marker byte (inverts `wrapPrepend`). -/
def unwrapTail (blob : List Nat) : Option (List Nat) := some (blob.drop 1)

/-- Witness AEAD seal: identity ciphertext plus an all-zero 16-byte tag. -/
def sealPad (_key _iv data : List Nat) : List Nat := data ++ List.replicate 16 0

/-- Witness AEAD open: accept exactly an all-zero 16-byte trailing tag
(inverts `sealPad`). -/
def openPad (_key _iv ct : List Nat) : Option (List Nat) :=
  if 16 ≤ ct.length ∧ ct.drop (ct.length - 16) = List.replicate 16 0 then
    some (ct.take (ct.length - 16))
  else none

/-- A 32-byte data key, standing for the bytes Go's `rand.Read` fills in. -/
def key32 : List Nat := List.replicate 32 7

/-- A 16-byte IV, standing for the bytes Go's `rand.Read` fills in. -/
def iv16 : List Nat := List.replicate 16 9

theorem decryptData_encryptData_witness :
    ∃ env, encryptData "kms-key-id" wrapPrepend sealPad key32 iv16 []
        = some env ∧
      decryptData unwrapTail openPad env = some [] :=
  decryptData_encryptData "kms-key-id" wrapPrepend unwrapTail sealPad openPad
    key32 iv16 [] (0 :: key32) (by decide) (by decide) (by decide)
    (by decide) (by decide) (by decide) (by decide) (by decide)

theorem envelope_format_witness :
    (∃ tag ct, tag.length = 16 ∧ ct.length = 3 ∧
      sealPad key32 iv16 [1, 2, 3] = ct ++ tag ∧
      encryptData "kms-key-id" wrapPrepend sealPad key32 iv16 [1, 2, 3] =
        some (be32 (0 :: key32).length ++ (0 :: key32) ++ iv16 ++ tag ++ ct)) ∧
    (∀ w' iv' tag' ct' : List Nat,
      w'.length < 2 ^ 32 → iv'.length = 16 → tag'.length = 16 →
      decryptData unwrapTail openPad (be32 w'.length ++ w' ++ iv' ++ tag' ++ ct') =
        match unwrapTail w' with
        | none => none
        | some key =>
          if key.length = 16 ∨ key.length = 24 ∨ key.length = 32 then
            openPad key iv' (ct' ++ tag')
          else none) :=
  envelope_format "kms-key-id" wrapPrepend unwrapTail sealPad openPad
    key32 iv16 [1, 2, 3] (0 :: key32) (by decide) (by decide) (by decide)

theorem encryptData_length_witness :
    ∃ env, encryptData "kms-key-id" wrapPrepend sealPad key32 iv16 [1, 2, 3]
        = some env ∧
      env.length = 4 + (0 :: key32).length + 32 + 3 ∧
      ((sealPad key32 iv16 [1, 2, 3]).take
          ((sealPad key32 iv16 [1, 2, 3]).length - 16)).length = 3 :=
  encryptData_length "kms-key-id" wrapPrepend sealPad key32 iv16 [1, 2, 3]
    (0 :: key32) (by decide) (by decide) (by decide) (by decide)

/-! ## Compression codec

`producer.compressData` (producer/producer.go:236-252) wraps
`gzip.NewWriterLevel` / `Write` / `Close` over a `bytes.Buffer`;
`consumer.decompressData` (consumer/consumer.go:1034-1043) wraps
`gzip.NewReader` / `io.ReadAll`.  The DEFLATE coder itself lives in Go's
`compress/gzip`, an external collaborator, so it is a parameter:
`gzipDeflate level data` is the byte stream the gzip writer emits, and
`gzipInflate data` is what the gzip reader recovers (`none` = malformed
input, i.e. `CorruptPayload`).  `gzip.NewWriterLevel` rejects levels outside
`-2 ..= 9`; writing to and closing a `bytes.Buffer`-backed writer cannot fail.
-/

/-- Model of `producer.compressData`. -/
def compressData (gzipDeflate : Int → List Nat → List Nat)
    (data : List Nat) (level : Int) : Option (List Nat) :=
  if level < -2 ∨ 9 < level then none
  else some (gzipDeflate level data)

/-- Model of `consumer.decompressData`. -/
def decompressData (gzipInflate : List Nat → Option (List Nat))
    (data : List Nat) : Option (List Nat) :=
  gzipInflate data

/-- C6: compression round-trip.  For every byte string (including `[]`) and
every level `1 ≤ L ≤ 9`, given gzip's own round-trip contract for that input,
`compressData` succeeds and `decompressData` returns the original bytes. -/
theorem decompressData_compressData (gzipDeflate : Int → List Nat → List Nat)
    (gzipInflate : List Nat → Option (List Nat)) (data : List Nat) (level : Int)
    (hlo : 1 ≤ level) (hhi : level ≤ 9)
    (hinv : gzipInflate (gzipDeflate level data) = some data) :
    ∃ c, compressData gzipDeflate data level = some c ∧
      decompressData gzipInflate c = some data := by
  refine ⟨gzipDeflate level data, ?_, hinv⟩
  unfold compressData
  rw [if_neg (by omega)]

theorem decompressData_compressData_witness :
    ∃ c, compressData (fun _ d => d) [] 6 = some c ∧
      decompressData some c = some [] :=
  decompressData_compressData (fun _ d => d) some [] 6
    (by decide) (by decide) rfl

/-! ## Dataset identity derivation

`slugify` and `generateDatasetID` (src/unnamed/part_004:14-30).  `slugify`
lower-cases the name (`strings.ToLower`, modelled for ASCII input), replaces
every maximal run matching `[^a-z0-9-]+` with a single `-`
(`slugRegex.ReplaceAllString`), trims `-` from both ends (`strings.Trim`) and
falls back to `"dataset"` for an empty result.  `generateDatasetID` appends a
wall-clock timestamp `time.Now().UTC().Format("20060102150405")`, passed here
as the `timestamp` parameter since the clock is external state. -/

/-- ASCII case folding, modelling `strings.ToLower` on ASCII input. -/
def asciiToLower (c : Char) : Char :=
  if 'A' ≤ c ∧ c ≤ 'Z' then Char.ofNat (c.toNat + 32) else c

/-- A character matched by the slug alphabet `[a-z0-9-]`. -/
def isSlugChar (c : Char) : Bool :=
  ('a' ≤ c && c ≤ 'z') || ('0' ≤ c && c ≤ '9') || c = '-'

/-- Model of `slugRegex.ReplaceAllString(slug, "-")` for `[^a-z0-9-]+`: each maximal
run of non-slug characters becomes a single `-`.  The `inRun` flag records
whether the previous character belonged to such a run. -/
def collapseNonSlug : List Char → Bool → List Char
  | [], _ => []
  | c :: rest, inRun =>
    if isSlugChar c then c :: collapseNonSlug rest false
    else if inRun then collapseNonSlug rest true
    else '-' :: collapseNonSlug rest true

/-- Model of `strings.Trim(slug, "-")`. -/
def trimDash (l : List Char) : List Char :=
  ((l.dropWhile (· = '-')).reverse.dropWhile (· = '-')).reverse

/-- Model of `slugify` (src/unnamed/part_004:14-22). -/
def slugify (name : String) : String :=
  let lowered := name.toList.map asciiToLower
  let collapsed := collapseNonSlug lowered false
  let trimmed := trimDash collapsed
  if trimmed.isEmpty then "dataset" else String.mk trimmed

/-- Model of `generateDatasetID` (src/unnamed/part_004:24-30): an explicit non-empty
override wins; otherwise the identity is
`customerID ++ "-" ++ slugify name ++ "-" ++ timestamp` where `timestamp` is
the current wall-clock time formatted as `20060102150405`. -/
def generateDatasetID (customerID name : String) (explicitID : Option String)
    (timestamp : String) : String :=
  match explicitID with
  | some id =>
    if id ≠ "" then id
    else customerID ++ "-" ++ slugify name ++ "-" ++ timestamp
  | none => customerID ++ "-" ++ slugify name ++ "-" ++ timestamp

/-- C3: the dataset identity is NOT time-independent.  Evaluating
`generateDatasetID` for producer `"acme"` and dataset name `"My Data"` at two
wall-clock readings one second apart yields two different identities, each
carrying the clock reading as a suffix — so two uploads of the same name by
the same producer do not reuse the same record identity. -/
theorem generateDatasetID_time_dependent :
    generateDatasetID "acme" "My Data" none "20260101000000"
      = "acme-my-data-20260101000000" ∧
    generateDatasetID "acme" "My Data" none "20260101000001"
      = "acme-my-data-20260101000001" ∧
    generateDatasetID "acme" "My Data" none "20260101000000"
      ≠ generateDatasetID "acme" "My Data" none "20260101000001" := by
  refine ⟨?_, ?_, ?_⟩ <;> decide

/-! ## Upload orchestration

`Producer.UploadDataset` (producer/producer.go:510-576, the POST-first flow)
and `Producer.updateDataset` (producer/producer.go:578-638).  The effectful
steps — `createDatasetRecord` (analysis + `POST /v1/datasets`), `processFile`
(read + compress + encrypt), `uploadToPresignedURL` (HTTP `PUT`) and the final
`GET /v1/datasets/:id` — talk to external collaborators, so their outcomes are
supplied in an environment record; the orchestration logic between them is
translated line by line.  The returned trace records which catalog/storage
calls were issued, in order. -/

/-- Model of `producer.APIError` (producer/producer.go:55-67). -/
structure APIError where
  statusCode : Nat
  body : String
deriving DecidableEq

/-- Model of `APIError.IsConflict`: true for HTTP 409. -/
def APIError.isConflict (e : APIError) : Bool := e.statusCode = 409

/-- Model of `producer.CreateDatasetResponse` (producer/producer.go:329-333). -/
structure CreateDatasetResponse where
  id : String
  uploadURL : String
  s3Key : String
deriving DecidableEq

/-- Model of `producer.UploadOptions` (producer/producer.go:73-83); the metadata and
override maps are irrelevant to the orchestration decisions modelled here. -/
structure UploadOptions where
  category : String
  compress : Bool
  compressionLevel : Nat
  dataFreshness : String
  datasetName : String
  description : String
  encrypt : Bool
deriving DecidableEq

/-- The `Producer` configuration fields consulted by `UploadDataset`. -/
structure Producer where
  apiEndpoint : String
  bucketName : String
  customerID : String
  kmsKeyID : String
  region : String
deriving DecidableEq

/-- Model of `types.Dataset`, restricted to the fields `UploadDataset` writes in its
fallback construction. -/
structure Dataset where
  id : String
  idAlias : String
  name : String
  description : String
  producerID : String
  category : String
  s3Key : String
  s3BucketName : String
  s3Bucket : String
deriving DecidableEq

/-- One external call issued during an upload. -/
inductive UploadCall where
  | createDataset
  | putPresigned
  | getDataset (id : String)
  | patchDataset (id : String)
deriving DecidableEq

/-- Outcomes of the effectful steps of `UploadDataset`, fixed up front: the
collaborators are external, so a run of the orchestrator is a function of
these outcomes. -/
structure UploadEnv where
  createResult : Except APIError CreateDatasetResponse
  processResult : Except String (List Nat)
  putResult : Except APIError Unit
  getResult : Except APIError Dataset

/-- Model of `Producer.UploadDataset` (producer/producer.go:510-576).  Returns the
result Go would return (`error` modelled as `.error msg` with the `fmt.Errorf`
prefix) together with the ordered trace of external calls.  Note the flow:
defaults, encrypt/compress/KMS validation, `createDatasetRecord`,
`processFile`, `uploadToPresignedURL`, final `GET`; a `GET` failure falls back
to a locally constructed dataset and still succeeds. -/
def UploadDataset (p : Producer) (env : UploadEnv) (opts : UploadOptions) :
    Except String Dataset × List UploadCall :=
  let opts := { opts with
    category := if opts.category = "" then "general" else opts.category,
    dataFreshness :=
      if opts.dataFreshness = "" then "daily" else opts.dataFreshness,
    compressionLevel :=
      if opts.compressionLevel = 0 then 6 else opts.compressionLevel }
  if opts.encrypt = false then
    (.error "encryption is required for dataset uploads", [])
  else if opts.compress = false then
    (.error "compression is required for dataset uploads", [])
  else if opts.encrypt = true ∧ p.kmsKeyID = "" then
    (.error "encryption requested but KMS key not found", [])
  else
    match env.createResult with
    | .error _ => (.error "failed to create dataset record", [.createDataset])
    | .ok createResp =>
      match env.processResult with
      | .error msg => (.error msg, [.createDataset])
      | .ok _ =>
        match env.putResult with
        | .error _ =>
          (.error "dataset record created but upload failed",
            [.createDataset, .putPresigned])
        | .ok _ =>
          match env.getResult with
          | .error _ =>
            (.ok {
              id := createResp.id
              idAlias := createResp.id
              name := opts.datasetName
              description := opts.description
              producerID := p.customerID
              category := opts.category
              s3Key := createResp.s3Key
              s3BucketName := p.bucketName
              s3Bucket := p.bucketName },
             [.createDataset, .putPresigned, .getDataset createResp.id])
          | .ok ds =>
            (.ok ds,
             [.createDataset, .putPresigned, .getDataset createResp.id])

/-- The allow-list of `Producer.updateDataset`
(producer/producer.go:585-591). -/
def updateableFields : List String :=
  ["name", "description", "schema", "metadata", "status",
   "visibility", "category", "access_tier", "tags",
   "size_bytes", "record_count", "s3_key", "s3_bucket_name",
   "data_freshness", "version", "version_notes", "last_updated",
   "updated_at", "updated_by"]

/-- The payload-filtering step of `Producer.updateDataset`
(producer/producer.go:580-597): copy into the PATCH body exactly the
allow-listed fields present in the input payload.  (The subsequent PATCH call
and the reconstruction of the returned `types.Dataset` from the same payload
are straightforward and not needed by any claim.) -/
def updateDatasetPayload {V : Type} (payload : List (String × V)) :
    List (String × V) :=
  updateableFields.filterMap fun f => (payload.lookup f).map fun v => (f, v)

/-- Allow-list filtering over a duplicate-free field list: looking a key up in
the filtered payload agrees with the original payload on listed keys and is
empty elsewhere. -/
theorem lookup_filter_allowlist {V : Type} (fields : List String)
    (hnd : fields.Nodup) (payload : List (String × V)) (k : String) :
    (fields.filterMap fun f => (payload.lookup f).map fun v => (f, v)).lookup k
      = if k ∈ fields then payload.lookup k else none := by
  induction fields with
  | nil => simp
  | cons f t ih =>
    have hft : f ∉ t := (List.nodup_cons.mp hnd).1
    have hnt : t.Nodup := (List.nodup_cons.mp hnd).2
    by_cases hk : k = f
    · subst hk
      cases hlook : payload.lookup k with
      | none =>
        simp only [List.filterMap_cons, hlook, Option.map_none']
        rw [ih hnt]
        simp [hft]
      | some v =>
        simp only [List.filterMap_cons, hlook, Option.map_some']
        simp [List.lookup, hlook]
    · cases hlook : payload.lookup f with
      | none =>
        simp only [List.filterMap_cons, hlook, Option.map_none']
        rw [ih hnt]
        simp [List.mem_cons, hk]
      | some v =>
        simp only [List.filterMap_cons, hlook, Option.map_some']
        have hbeq : (k == f) = false := beq_false_of_ne hk
        simp [List.lookup, hbeq, ih hnt, List.mem_cons, hk]

/-- C4 counterexample: a concrete upload in which creating the catalog record
reports a 409 conflict.  `UploadDataset` returns the wrapped creation error
and its call trace is exactly the single create call: no PATCH (partial
update) is ever issued, refuting the claimed conflict fallback. -/
theorem uploadDataset_conflict_no_fallback :
    UploadDataset
      { apiEndpoint := "https://api-go.helix.tools", bucketName := "bkt",
        customerID := "acme", kmsKeyID := "kms-key-id", region := "us-east-1" }
      { createResult := .error { statusCode := 409, body := "conflict" },
        processResult := .ok [1], putResult := .ok (),
        getResult := .error { statusCode := 500, body := "" } }
      { category := "general", compress := true, compressionLevel := 6,
        dataFreshness := "daily", datasetName := "sales", description := "",
        encrypt := true }
      = (.error "failed to create dataset record", [.createDataset]) ∧
    APIError.isConflict { statusCode := 409, body := "conflict" } = true := by
  constructor
  · rfl
  · rfl

/-- C4 amended: when creating the catalog record fails — in particular on a
409 conflict — the POST-first `UploadDataset` fails the upload with the
wrapped creation error after issuing only the create call; it never falls
back to a PATCH.  Independently, the `updateDataset` helper restricts its
PATCH payload to exactly the fixed allow-list of mutable fields: lookups in
the filtered payload agree with the original payload on allow-listed keys and
are empty on all others. -/
theorem uploadDataset_conflict_behavior {V : Type} (p : Producer)
    (env : UploadEnv) (opts : UploadOptions) (e : APIError)
    (henc : opts.encrypt = true) (hcomp : opts.compress = true)
    (hkms : p.kmsKeyID ≠ "") (hcreate : env.createResult = .error e) :
    (UploadDataset p env opts
      = (.error "failed to create dataset record", [.createDataset])) ∧
    (∀ (payload : List (String × V)) (k : String),
      (updateDatasetPayload payload).lookup k
        = if k ∈ updateableFields then payload.lookup k else none) := by
  constructor
  · unfold UploadDataset
    rw [if_neg (by simp [henc]), if_neg (by simp [hcomp]),
      if_neg (by simp [hkms]), hcreate]
  · intro payload k
    exact lookup_filter_allowlist updateableFields (by decide) payload k

theorem uploadDataset_conflict_behavior_witness :
    (UploadDataset
      { apiEndpoint := "https://api-go.helix.tools", bucketName := "bkt",
        customerID := "acme", kmsKeyID := "kms-key-id", region := "us-east-1" }
      { createResult := .error { statusCode := 409, body := "conflict" },
        processResult := .ok [1], putResult := .ok (),
        getResult := .error { statusCode := 500, body := "" } }
      { category := "", compress := true, compressionLevel := 0,
        dataFreshness := "", datasetName := "sales", description := "",
        encrypt := true }
      = (.error "failed to create dataset record", [.createDataset])) ∧
    (∀ (payload : List (String × Nat)) (k : String),
      (updateDatasetPayload payload).lookup k
        = if k ∈ updateableFields then payload.lookup k else none) :=
  uploadDataset_conflict_behavior
    { apiEndpoint := "https://api-go.helix.tools", bucketName := "bkt",
      customerID := "acme", kmsKeyID := "kms-key-id", region := "us-east-1" }
    { createResult := .error { statusCode := 409, body := "conflict" },
      processResult := .ok [1], putResult := .ok (),
      getResult := .error { statusCode := 500, body := "" } }
    { category := "", compress := true, compressionLevel := 0,
      dataFreshness := "", datasetName := "sales", description := "",
      encrypt := true }
    { statusCode := 409, body := "conflict" }
    rfl rfl (by decide) rfl

/-! ## Streaming NDJSON analyzer

`producer.analyzeData`, `isEmptyValue`, `getFieldStatus`, the `schemaBuilder`
family, `inferType` and `roundTo2Decimals`
(the `upload_analysis` source of the producer package).

JSON values decoded by `json.Unmarshal` into `map[string]any` are modelled by
the mutual inductive `JValue`/`JList`/`JFields` (Go's `nil`, `bool`,
`float64`, `string`, `[]any`, `map[string]any`).  Go's maps and map-backed
sets are unordered, so field lists stand for key/value collections in which
only key membership and lookup matter, and `float64` percentage arithmetic is
carried out exactly over `ℚ`. -/

mutual
inductive JValue where
  | null
  | bool (b : Bool)
  | num (n : Int)
  | str (s : String)
  | arr (elems : JList)
  | obj (fields : JFields)
  deriving DecidableEq
inductive JList where
  | nil
  | cons (head : JValue) (tail : JList)
  deriving DecidableEq
inductive JFields where
  | nil
  | cons (key : String) (val : JValue) (tail : JFields)
  deriving DecidableEq
end

/-- Keys of a JSON object, in field order. -/
def JFields.keys : JFields → List String
  | .nil => []
  | .cons k _ t => k :: keys t

/-- The underlying key/value list of a JSON object. -/
def JFields.toList : JFields → List (String × JValue)
  | .nil => []
  | .cons k v t => (k, v) :: toList t

/-- Map-style lookup in a JSON object (Go maps have unique keys). -/
def JFields.lookup : JFields → String → Option JValue
  | .nil, _ => none
  | .cons k v t, key => if key = k then some v else lookup t key

/-- Model of `len(map) == 0`. -/
def JFields.isEmpty : JFields → Bool
  | .nil => true
  | .cons _ _ _ => false

/-- Model of `len(slice) == 0`. -/
def JList.isEmpty : JList → Bool
  | .nil => true
  | .cons _ _ => false

/-- The underlying element list of a JSON array. -/
def JList.toList : JList → List JValue
  | .nil => []
  | .cons h t => h :: toList t

/-- Model of `strings.TrimSpace(val) == ""`: the string contains only whitespace
(including the empty string); modelled with ASCII whitespace. -/
def isBlank (s : String) : Bool := s.toList.all Char.isWhitespace

/-- Model of `isEmptyValue`: nil, whitespace-only string, empty slice or empty map;
everything else (zero, false, non-blank strings, …) is non-empty. -/
def isEmptyValue : JValue → Bool
  | .null => true
  | .str s => isBlank s
  | .arr xs => xs.isEmpty
  | .obj fs => fs.isEmpty
  | _ => false

/-- Dotted field paths: `prefix + "." + key`, or bare `key` at top level. -/
def mkPath (pfx key : String) : String :=
  if pfx = "" then key else pfx ++ "." ++ key

/-! Model of `getFieldStatus` and its recursion, returning
`(allFields, presentFields)` as set-denoting lists.  `gfsFields` walks the
object's fields: every key contributes its path to `allFields`; a non-empty
value contributes its path to `presentFields` and recurses — into a nested
object under the dotted path, or, for a non-empty array WHOSE FIRST ELEMENT
IS AN OBJECT (`arr[0].(map[string]any)`), into every object element under the
path suffixed with the literal `[]` marker (non-object elements are
skipped).  `gfsVal` fuses Go's `isEmptyValue` test with its two type
switches into one case split on the value's constructor; each case agrees
with `isEmptyValue` (see `gfsVal_empty` below). -/
mutual
def gfsFields : JFields → String → List String × List String
  | .nil, _ => ([], [])
  | .cons k v t, pfx =>
    let path := mkPath pfx k
    let fromVal := gfsVal v path
    let fromRest := gfsFields t pfx
    (path :: (fromVal.1 ++ fromRest.1), fromVal.2 ++ fromRest.2)
def gfsVal : JValue → String → List String × List String
  | .null, _ => ([], [])
  | .bool _, path => ([], [path])
  | .num _, path => ([], [path])
  | .str s, path => if isBlank s then ([], []) else ([], [path])
  | .obj .nil, _ => ([], [])
  | .obj (.cons k v t), path =>
    let nested := gfsFields (.cons k v t) path
    (nested.1, path :: nested.2)
  | .arr .nil, _ => ([], [])
  | .arr (.cons (.obj f0) t), path =>
    let nested := gfsArr (.cons (.obj f0) t) path
    (nested.1, path :: nested.2)
  | .arr (.cons _ _), path => ([], [path])
def gfsArr : JList → String → List String × List String
  | .nil, _ => ([], [])
  | .cons h t, path =>
    let fromItem :=
      match h with
      | .obj fs => gfsFields fs (path ++ "[]")
      | _ => ([], [])
    let fromRest := gfsArr t path
    (fromItem.1 ++ fromRest.1, fromItem.2 ++ fromRest.2)
end

/-! Model of the `schemaBuilder` family: `propertySchema` trees accumulate,
per field, the set of observed type tags, a nested property tree for object
values, and a shared item schema for array elements.  Go's `map[string]bool`
type sets and `map[string]*propertySchema` property maps are unordered, so
they appear as lists in which only membership and lookup matter. -/

mutual
inductive PropSchema where
  | mk (types : List String) (properties : PropMap) (items : ItemSchema)
inductive PropMap where
  | nil
  | cons (key : String) (val : PropSchema) (tail : PropMap)
inductive ItemSchema where
  | none
  | some (s : PropSchema)
end

/-- Type tags of a property schema. -/
def PropSchema.types : PropSchema → List String
  | .mk ts _ _ => ts

/-- Nested property tree of a property schema. -/
def PropSchema.properties : PropSchema → PropMap
  | .mk _ ps _ => ps

/-- Array item schema of a property schema (`nil` pointer in Go = `.none`). -/
def PropSchema.items : PropSchema → ItemSchema
  | .mk _ _ its => its

/-- A freshly initialised `&propertySchema{types: …, properties: …}`. -/
def emptyProp : PropSchema := .mk [] .nil .none

/-- Keys of a property map. -/
def PropMap.keys : PropMap → List String
  | .nil => []
  | .cons k _ t => k :: keys t

/-- Lookup in a property map (`props[key]`). -/
def PropMap.lookup : PropMap → String → Option PropSchema
  | .nil, _ => none
  | .cons k v t, key => if key = k then some v else lookup t key

/-- The entry for `key`, or a fresh empty schema if absent (Go initialises a
missing entry before mutating it). -/
def PropMap.getD (m : PropMap) (key : String) : PropSchema :=
  match m.lookup key with
  | Option.some s => s
  | Option.none => emptyProp

/-- Store an entry under `key`, replacing an existing one or appending a new
one (Go map assignment; key order is immaterial). -/
def PropMap.set : PropMap → String → PropSchema → PropMap
  | .nil, key, s => .cons key s .nil
  | .cons k v t, key, s =>
    if key = k then .cons k s t else .cons k v (set t key s)

/-- Model of `inferType`.  `json.Unmarshal` into `map[string]any` produces
`nil`, `bool`, `float64`, `string`, `[]any` or `map[string]any`, so the Go
`int`/`int64` cases (`"integer"`) and the `"unknown"` default are unreachable
for parsed records; every JSON number is a `float64`, tagged `"number"`. -/
def inferType : JValue → String
  | .null => "null"
  | .bool _ => "boolean"
  | .num _ => "number"
  | .str _ => "string"
  | .arr _ => "array"
  | .obj _ => "object"

/-- Insertion into a type-tag set (`prop.types[t] = true`). -/
def insertType (ts : List String) (t : String) : List String :=
  if t ∈ ts then ts else ts ++ [t]

/-! Model of `schemaBuilder.addObject` / `addProperties`: merge one record
(or nested object) into a property map; arrays merge every element into the
field's single shared item schema. -/

mutual
def addFields : JFields → PropMap → PropMap
  | .nil, props => props
  | .cons k v t, props =>
    addFields t (props.set k (addValue v (props.getD k)))
def addValue : JValue → PropSchema → PropSchema
  | v, prop =>
    let ts := insertType prop.types (inferType v)
    match v with
    | .obj fs => .mk ts (addFields fs prop.properties) prop.items
    | .arr xs =>
      match xs with
      | .nil => .mk ts prop.properties prop.items
      | .cons _ _ =>
        let base :=
          match prop.items with
          | .none => emptyProp
          | .some s => s
        .mk ts prop.properties (.some (addItems xs base))
    | _ => .mk ts prop.properties prop.items
def addItems : JList → PropSchema → PropSchema
  | .nil, itemsProp => itemsProp
  | .cons h t, itemsProp =>
    let ts := insertType itemsProp.types (inferType h)
    let itemsProp' :=
      match h with
      | .obj fs => PropSchema.mk ts (addFields fs itemsProp.properties)
          itemsProp.items
      | _ => PropSchema.mk ts itemsProp.properties itemsProp.items
    addItems t itemsProp'
end

/-- Insertion sort step for `sort.Strings`. -/
def insertSorted (s : String) : List String → List String
  | [] => [s]
  | x :: xs => if s ≤ x then s :: x :: xs else x :: insertSorted s xs

/-- Model of `sort.Strings`. -/
def sortStrings (l : List String) : List String := l.foldr insertSorted []

/-- The `"type"` entry of an emitted property: a single tag, or the sorted
list of tags when more than one was observed, or nothing for no tags. -/
def typeEntry (ts : List String) : JFields :=
  match sortStrings ts with
  | [] => .nil
  | [t] => .cons "type" (.str t) .nil
  | t :: rest =>
    .cons "type" (.arr (listToJList ((t :: rest).map JValue.str))) .nil
where
  listToJList : List JValue → JList
    | [] => .nil
    | v :: vs => .cons v (listToJList vs)

/-- Concatenation of JSON object fields. -/
def JFields.append : JFields → JFields → JFields
  | .nil, g => g
  | .cons k v t, g => .cons k v (append t g)

/-! Model of `schemaBuilder.toSchema` / `propertiesToSchema`.  Each property
is emitted as a map with its (sorted) `type` tags, its nested `properties`
when non-empty and its `items` schema when present; the item schema carries
the item types and item properties (as in the Go code, an item schema's own
nested `items` is not emitted). -/

/-- Emptiness test for a property map (`len(prop.properties) > 0` guard). -/
def PropMap.isNil : PropMap → Bool
  | .nil => true
  | .cons _ _ _ => false

mutual
def propertiesToSchema : PropMap → JFields
  | .nil => .nil
  | .cons k v t => .cons k (propToSchema v) (propertiesToSchema t)
def propToSchema : PropSchema → JValue
  | .mk ts ps its =>
    let typesPart := typeEntry ts
    let propsPart : JFields :=
      if ps.isNil then .nil
      else .cons "properties" (.obj (propertiesToSchema ps)) .nil
    let itemsPart : JFields :=
      match its with
      | .none => .nil
      | .some (.mk itemTs itemPs _) =>
        let itemTypes := typeEntry itemTs
        let itemProps : JFields :=
          if itemPs.isNil then .nil
          else .cons "properties" (.obj (propertiesToSchema itemPs)) .nil
        .cons "items" (.obj (itemTypes.append itemProps)) .nil
    .obj ((typesPart.append propsPart).append itemsPart)
end

/-- Model of `schemaBuilder.toSchema`:
`{"type": "object", "properties": …}`. -/
def toSchema (props : PropMap) : JValue :=
  .obj (.cons "type" (.str "object")
    (.cons "properties" (.obj (propertiesToSchema props)) .nil))

/-! Model of `analyzeData` itself.  Its input is the sequence of scanner
lines; `strings.TrimSpace` plus `json.Unmarshal` classify each line as blank
(skipped), malformed (counted in `analysisErrors`; this includes valid JSON
that is not an object) or a parsed record.  JSON parsing lives in Go's
standard library, so lines enter the model already classified. -/

inductive Line where
  | blank
  | malformed
  | record (fields : JFields)

/-- The loop state of `analyzeData`: `allFields` and the per-field present
counts, the schema builder, the record count and the parse-error count. -/
structure AnalyzeState where
  allFields : List String
  presentCount : List (String × Nat)
  builder : PropMap
  recordCount : Nat
  analysisErrors : Nat

/-- Set insertion (`allFields[field] = true`). -/
def insertField (s : List String) (x : String) : List String :=
  if x ∈ s then s else s ++ [x]

/-- Fold set insertion over a record's discovered fields. -/
def insertAll (s : List String) (xs : List String) : List String :=
  xs.foldl insertField s

/-- Counter increment (`fieldPresentCount[field]++`). -/
def bumpCount : List (String × Nat) → String → List (String × Nat)
  | [], f => [(f, 1)]
  | (g, n) :: rest, f =>
    if f = g then (g, n + 1) :: rest else (g, n) :: bumpCount rest f

/-- Fold counter increments over a record's present fields. -/
def bumpCounts (m : List (String × Nat)) (fs : List String) :
    List (String × Nat) :=
  fs.foldl bumpCount m

/-- Read a counter (0 when the field was never present). -/
def countOf (m : List (String × Nat)) (f : String) : Nat :=
  (m.lookup f).getD 0

/-- The scan loop of `analyzeData`: blank lines are skipped; malformed lines
bump `analysisErrors` and are skipped; a parsed record bumps `recordCount`,
is merged into the schema builder iff `sampleLimit == 0 ∨ recordCount ≤
sampleLimit`, and always feeds the emptiness bookkeeping (`getFieldStatus`)
regardless of the sample limit.  `presentFields` is a Go map set, so the
per-record present list is deduplicated before counting. -/
def processLines (limit : Nat) : List Line → AnalyzeState → AnalyzeState
  | [], st => st
  | .blank :: rest, st => processLines limit rest st
  | .malformed :: rest, st =>
    processLines limit rest { st with analysisErrors := st.analysisErrors + 1 }
  | .record fs :: rest, st =>
    let rc := st.recordCount + 1
    let builder' :=
      if limit = 0 ∨ rc ≤ limit then addFields fs st.builder else st.builder
    let status := gfsFields fs ""
    processLines limit rest
      { allFields := insertAll st.allFields status.1
        presentCount := bumpCounts st.presentCount status.2.dedup
        builder := builder'
        recordCount := rc
        analysisErrors := st.analysisErrors }

/-- The initial loop state. -/
def initState : AnalyzeState :=
  { allFields := [], presentCount := [], builder := .nil,
    recordCount := 0, analysisErrors := 0 }

/-- Go `int(f)` truncates toward zero. -/
def goTrunc (q : ℚ) : Int := if 0 ≤ q then ⌊q⌋ else ⌈q⌉

/-- Model of `roundTo2Decimals`: `float64(int(f*100+0.5)) / 100`, over exact
rationals. -/
def roundTo2Decimals (q : ℚ) : ℚ := (goTrunc (q * 100 + 1 / 2) : ℚ) / 100

/-- Model of `producer.AnalysisResult`.  `fieldEmptiness` is a
`map[string]float64` in Go (unordered — `sortByValueDesc` returns a fresh map
whose iteration order is still unspecified), modelled as a key-unique
association list in field-discovery order. -/
structure AnalysisResult where
  schema : JValue
  fieldEmptiness : List (String × ℚ)
  recordCount : Nat
  analysisErrors : Nat

/-- Model of `producer.analyzeData`: run the scan loop, then compute each
discovered field's emptiness
`(recordCount - presentCount) / recordCount * 100` (0 when there are no
records), rounded via `roundTo2Decimals`; the schema is the builder's output,
or an empty object map when no records parsed. -/
def analyzeData (lines : List Line) (sampleLimit : Nat) : AnalysisResult :=
  let st := processLines sampleLimit lines initState
  { schema := if 0 < st.recordCount then toSchema st.builder else .obj .nil
    fieldEmptiness := st.allFields.map fun f =>
      (f, roundTo2Decimals (if 0 < st.recordCount then
            (((st.recordCount : ℚ) - countOf st.presentCount f) /
              st.recordCount) * 100
          else 0))
    recordCount := st.recordCount
    analysisErrors := st.analysisErrors }

/-- Top-level property keys of an emitted schema
(`schema["properties"]`). -/
def schemaPropertyKeys (schema : JValue) : List String :=
  match schema with
  | .obj fs =>
    match fs.lookup "properties" with
    | Option.some (.obj ps) => ps.keys
    | _ => []
  | _ => []

/-! ### Characterizing the scan loop -/

/-- The successfully parsed records of the line stream, in order. -/
def parsedRecords (lines : List Line) : List JFields :=
  lines.filterMap fun l =>
    match l with
    | .record fs => Option.some fs
    | _ => Option.none

/-- The sampled records: all of them when `limit = 0`, otherwise the first
`limit` parsed records (the running `recordCount ≤ limit` guard). -/
def sampledRecords (lines : List Line) (limit : Nat) : List JFields :=
  if limit = 0 then parsedRecords lines else (parsedRecords lines).take limit

/-- Whether `analyzeData`'s emptiness bookkeeping marks field path `f` present
in record `fs`. -/
def presentInRecord (fs : JFields) (f : String) : Prop :=
  f ∈ (gfsFields fs "").2

instance (fs : JFields) (f : String) : Decidable (presentInRecord fs f) := by
  unfold presentInRecord
  infer_instance

/-- Number of parsed records in which `f` is present. -/
def presentCountIn (lines : List Line) (f : String) : Nat :=
  ((parsedRecords lines).filter fun fs => decide (presentInRecord fs f)).length

theorem countOf_bumpCount (m : List (String × Nat)) (f g : String) :
    countOf (bumpCount m g) f = countOf m f + if f = g then 1 else 0 := by
  induction m with
  | nil =>
    by_cases h : f = g
    · subst h; simp [bumpCount, countOf, List.lookup]
    · simp [bumpCount, countOf, List.lookup, beq_false_of_ne h, h]
  | cons p rest ih =>
    obtain ⟨k, n⟩ := p
    simp only [bumpCount]
    by_cases hg : g = k
    · subst hg
      rw [if_pos rfl]
      by_cases h : f = g
      · subst h; simp [countOf, List.lookup]
      · simp [countOf, List.lookup, beq_false_of_ne h, h]
    · rw [if_neg hg]
      by_cases h : f = k
      · subst h
        have hfg : ¬f = g := fun hh => hg (hh ▸ rfl)
        simp [countOf, List.lookup, hfg]
      · simpa [countOf, List.lookup, beq_false_of_ne h] using ih

theorem countOf_bumpCounts (m : List (String × Nat)) (l : List String)
    (hnd : l.Nodup) (f : String) :
    countOf (bumpCounts m l) f = countOf m f + if f ∈ l then 1 else 0 := by
  induction l generalizing m with
  | nil => simp [bumpCounts]
  | cons x xs ih =>
    have hx : x ∉ xs := (List.nodup_cons.mp hnd).1
    have hxs : xs.Nodup := (List.nodup_cons.mp hnd).2
    have hfold : bumpCounts m (x :: xs) = bumpCounts (bumpCount m x) xs := rfl
    rw [hfold, ih (bumpCount m x) hxs, countOf_bumpCount]
    by_cases hfx : f = x
    · subst hfx
      simp [hx]
    · simp [List.mem_cons, hfx]

theorem mem_insertField {s : List String} {x y : String} :
    y ∈ insertField s x ↔ y ∈ s ∨ y = x := by
  unfold insertField
  by_cases h : x ∈ s
  · rw [if_pos h]
    constructor
    · exact Or.inl
    · rintro (hy | rfl)
      · exact hy
      · exact h
  · rw [if_neg h]
    simp

theorem nodup_insertField {s : List String} (hnd : s.Nodup) (x : String) :
    (insertField s x).Nodup := by
  unfold insertField
  by_cases h : x ∈ s
  · rwa [if_pos h]
  · rw [if_neg h]
    simpa [List.nodup_append] using ⟨hnd, h⟩

theorem mem_insertAll {s : List String} {xs : List String} {y : String} :
    y ∈ insertAll s xs ↔ y ∈ s ∨ y ∈ xs := by
  induction xs generalizing s with
  | nil => simp [insertAll]
  | cons x rest ih =>
    have hstep : insertAll s (x :: rest) = insertAll (insertField s x) rest := rfl
    rw [hstep, ih, mem_insertField]
    simp [List.mem_cons]
    tauto

theorem nodup_insertAll {s : List String} (hnd : s.Nodup) (xs : List String) :
    (insertAll s xs).Nodup := by
  induction xs generalizing s with
  | nil => exact hnd
  | cons x rest ih => exact ih (nodup_insertField hnd x)

/-- Record count after the scan: every parsed record bumps it. -/
theorem processLines_recordCount (limit : Nat) (lines : List Line)
    (st : AnalyzeState) :
    (processLines limit lines st).recordCount
      = st.recordCount + (parsedRecords lines).length := by
  induction lines generalizing st with
  | nil => simp [processLines, parsedRecords]
  | cons l rest ih =>
    cases l with
    | blank => simpa [processLines, parsedRecords, List.filterMap_cons] using ih st
    | malformed =>
      simpa [processLines, parsedRecords, List.filterMap_cons] using ih _
    | record fs =>
      have h := ih { allFields := insertAll st.allFields (gfsFields fs "").1
                     presentCount :=
                       bumpCounts st.presentCount (gfsFields fs "").2.dedup
                     builder := if limit = 0 ∨ st.recordCount + 1 ≤ limit then
                         addFields fs st.builder
                       else st.builder
                     recordCount := st.recordCount + 1
                     analysisErrors := st.analysisErrors }
      simp only [processLines] at h ⊢
      rw [h]
      simp [parsedRecords, List.filterMap_cons]
      omega

/-- Parse-error count after the scan: every malformed line bumps it. -/
theorem processLines_analysisErrors (limit : Nat) (lines : List Line)
    (st : AnalyzeState) :
    (processLines limit lines st).analysisErrors
      = st.analysisErrors + (lines.filter fun l =>
          match l with
          | .malformed => true
          | _ => false).length := by
  induction lines generalizing st with
  | nil => simp [processLines]
  | cons l rest ih =>
    cases l with
    | blank => simpa [processLines, List.filter_cons] using ih st
    | malformed =>
      have h := ih { st with analysisErrors := st.analysisErrors + 1 }
      simp only [processLines] at h ⊢
      rw [h]
      simp [List.filter_cons]
      omega
    | record fs =>
      have h := ih { allFields := insertAll st.allFields (gfsFields fs "").1
                     presentCount :=
                       bumpCounts st.presentCount (gfsFields fs "").2.dedup
                     builder := if limit = 0 ∨ st.recordCount + 1 ≤ limit then
                         addFields fs st.builder
                       else st.builder
                     recordCount := st.recordCount + 1
                     analysisErrors := st.analysisErrors }
      simp only [processLines] at h ⊢
      rw [h]
      simp [List.filter_cons]

/-- Discovered fields after the scan: a path is tracked iff it was already
tracked or some parsed record discovers it — independently of the sample
limit. -/
theorem processLines_allFields (limit : Nat) (lines : List Line)
    (st : AnalyzeState) (f : String) :
    f ∈ (processLines limit lines st).allFields
      ↔ f ∈ st.allFields ∨ ∃ fs ∈ parsedRecords lines, f ∈ (gfsFields fs "").1 := by
  induction lines generalizing st with
  | nil => simp [processLines, parsedRecords]
  | cons l rest ih =>
    cases l with
    | blank =>
      simpa [processLines, parsedRecords, List.filterMap_cons] using ih st
    | malformed =>
      simpa [processLines, parsedRecords, List.filterMap_cons] using ih _
    | record fs =>
      have h := ih { allFields := insertAll st.allFields (gfsFields fs "").1
                     presentCount :=
                       bumpCounts st.presentCount (gfsFields fs "").2.dedup
                     builder := if limit = 0 ∨ st.recordCount + 1 ≤ limit then
                         addFields fs st.builder
                       else st.builder
                     recordCount := st.recordCount + 1
                     analysisErrors := st.analysisErrors }
      simp only [processLines] at h ⊢
      rw [h, mem_insertAll]
      simp [parsedRecords, List.filterMap_cons]
      tauto

/-- Present counts after the scan: each parsed record in which `f` is present
contributes exactly one, independently of the sample limit. -/
theorem processLines_presentCount (limit : Nat) (lines : List Line)
    (st : AnalyzeState) (f : String) :
    countOf (processLines limit lines st).presentCount f
      = countOf st.presentCount f + presentCountIn lines f := by
  induction lines generalizing st with
  | nil => simp [processLines, presentCountIn, parsedRecords]
  | cons l rest ih =>
    cases l with
    | blank =>
      simpa [processLines, presentCountIn, parsedRecords,
        List.filterMap_cons] using ih st
    | malformed =>
      simpa [processLines, presentCountIn, parsedRecords,
        List.filterMap_cons] using ih _
    | record fs =>
      have h := ih { allFields := insertAll st.allFields (gfsFields fs "").1
                     presentCount :=
                       bumpCounts st.presentCount (gfsFields fs "").2.dedup
                     builder := if limit = 0 ∨ st.recordCount + 1 ≤ limit then
                         addFields fs st.builder
                       else st.builder
                     recordCount := st.recordCount + 1
                     analysisErrors := st.analysisErrors }
      simp only [processLines] at h ⊢
      rw [h, countOf_bumpCounts _ _ (List.nodup_dedup _)]
      have hmem : f ∈ (gfsFields fs "").2.dedup ↔ presentInRecord fs f := by
        rw [List.mem_dedup]; rfl
      have hcount : presentCountIn (Line.record fs :: rest) f
          = (if presentInRecord fs f then 1 else 0) + presentCountIn rest f := by
        simp only [presentCountIn, parsedRecords, List.filterMap_cons]
        by_cases hp : presentInRecord fs f
        · simp [List.filter_cons, hp]
          omega
        · simp [List.filter_cons, hp]
      rw [hcount]
      by_cases hp : presentInRecord fs f
      · rw [if_pos (hmem.mpr hp), if_pos hp]
        omega
      · rw [if_neg (fun hh => hp (hmem.mp hh)), if_neg hp]
        omega

/-! ### Characterizing the schema builder -/

theorem mem_keys_set :
    ∀ (m : PropMap) (key : String) (s : PropSchema) (k : String),
    k ∈ (m.set key s).keys ↔ k ∈ m.keys ∨ k = key
  | .nil, key, s, k => by
    simp [PropMap.set, PropMap.keys, List.mem_cons, eq_comm]
  | .cons k' v t, key, s, k => by
    by_cases h : key = k'
    · subst h
      simp [PropMap.set, PropMap.keys, List.mem_cons]
      tauto
    · simp only [PropMap.set, if_neg h, PropMap.keys, List.mem_cons,
        mem_keys_set t key s k]
      tauto

theorem mem_keys_addFields :
    ∀ (fs : JFields) (m : PropMap) (k : String),
    k ∈ (addFields fs m).keys ↔ k ∈ m.keys ∨ k ∈ fs.keys
  | .nil, m, k => by simp [addFields, JFields.keys]
  | .cons key v t, m, k => by
    have hstep : addFields (.cons key v t) m
        = addFields t (m.set key (addValue v (m.getD key))) := rfl
    rw [hstep, mem_keys_addFields t _ k, mem_keys_set]
    simp [JFields.keys, List.mem_cons]
    tauto

/-- Folding `addObject` over a list of records (the sampled prefix). -/
def addMany (rs : List JFields) (b : PropMap) : PropMap :=
  rs.foldl (fun b fs => addFields fs b) b

theorem mem_keys_addMany (rs : List JFields) (b : PropMap) (k : String) :
    k ∈ (addMany rs b).keys ↔ k ∈ b.keys ∨ ∃ fs ∈ rs, k ∈ fs.keys := by
  induction rs generalizing b with
  | nil => simp [addMany]
  | cons fs rest ih =>
    have hstep : addMany (fs :: rest) b = addMany rest (addFields fs b) := rfl
    rw [hstep, ih, mem_keys_addFields]
    simp [List.mem_cons]
    tauto

/-- Which records reach the schema builder when the loop starts from record
count `n`: all remaining ones for `limit = 0`, else the next `limit - n`. -/
def takeSample (limit n : Nat) (rs : List JFields) : List JFields :=
  if limit = 0 then rs else rs.take (limit - n)

/-- The builder after the scan is exactly the fold of the sampled records
over the starting builder. -/
theorem processLines_builder (limit : Nat) (lines : List Line)
    (st : AnalyzeState) :
    (processLines limit lines st).builder
      = addMany (takeSample limit st.recordCount (parsedRecords lines))
          st.builder := by
  induction lines generalizing st with
  | nil => simp [processLines, parsedRecords, takeSample, addMany]
  | cons l rest ih =>
    cases l with
    | blank =>
      simpa [processLines, parsedRecords, List.filterMap_cons] using ih st
    | malformed =>
      simpa [processLines, parsedRecords, List.filterMap_cons] using ih _
    | record fs =>
      have h := ih { allFields := insertAll st.allFields (gfsFields fs "").1
                     presentCount :=
                       bumpCounts st.presentCount (gfsFields fs "").2.dedup
                     builder := if limit = 0 ∨ st.recordCount + 1 ≤ limit then
                         addFields fs st.builder
                       else st.builder
                     recordCount := st.recordCount + 1
                     analysisErrors := st.analysisErrors }
      simp only [processLines] at h ⊢
      rw [h]
      have hpr : parsedRecords (Line.record fs :: rest)
          = fs :: parsedRecords rest := by
        simp [parsedRecords, List.filterMap_cons]
      rw [hpr]
      by_cases h0 : limit = 0
      · subst h0
        simp [takeSample, addMany]
      · by_cases hle : st.recordCount + 1 ≤ limit
        · have htake : takeSample limit st.recordCount
             (fs :: parsedRecords rest)
              = fs :: takeSample limit (st.recordCount + 1)
                  (parsedRecords rest) := by
            simp only [takeSample, if_neg h0]
            have : limit - st.recordCount
                = (limit - (st.recordCount + 1)) + 1 := by omega
            rw [this, List.take_succ_cons]
          rw [htake, if_pos (Or.inr hle)]
          rfl
        · have htake0 : limit - st.recordCount = 0 := by omega
          have htake1 : limit - (st.recordCount + 1) = 0 := by omega
          rw [if_neg (by rw [not_or]; exact ⟨h0, hle⟩)]
          simp [takeSample, if_neg h0, htake0, htake1, addMany]

theorem keys_propertiesToSchema :
    ∀ m : PropMap, (propertiesToSchema m).keys = m.keys
  | .nil => rfl
  | .cons k v t => by
    simp only [propertiesToSchema, JFields.keys, PropMap.keys,
      keys_propertiesToSchema t]

theorem schemaPropertyKeys_toSchema (m : PropMap) :
    schemaPropertyKeys (toSchema m) = m.keys := by
  simp [toSchema, schemaPropertyKeys, JFields.lookup, keys_propertiesToSchema]

theorem map_fst_map_pair {β : Type} (l : List String) (g : String → β) :
    ((l.map fun f => (f, g f)).map Prod.fst) = l := by
  induction l with
  | nil => rfl
  | cons x xs ih => simp [ih]

/-- The spec's sampling example: record 1 has field `a`, records 2-10 have
field `b`, record 11 has field `c`. -/
def lines11 : List Line :=
  [.record (.cons "a" (.num 1) .nil)] ++
    List.replicate 9 (.record (.cons "b" (.num 2) .nil)) ++
    [.record (.cons "c" (.num 3) .nil)]

/-- C7: schema sampling.  (a) A top-level key reaches the emitted schema's
properties iff some sampled record carries it, where the sampled records are
all parsed records when `sampleLimit = 0` and the first `sampleLimit` of them
otherwise (the running `recordCount ≤ sampleLimit` guard); (b) the emptiness
bookkeeping covers the fields of every parsed record, regardless of the
limit; (c) on 11 records where record 1 has `a`, records 2-10 have `b` and
record 11 has `c`, with `sampleLimit = 5`, the schema properties are exactly
`a` and `b` (no `c`) while `fieldEmptiness` covers `a`, `b` and `c`. -/
theorem analyzeData_sampling :
    (∀ (lines : List Line) (limit : Nat) (k : String),
      k ∈ schemaPropertyKeys (analyzeData lines limit).schema ↔
        0 < (analyzeData lines limit).recordCount ∧
          ∃ fs ∈ sampledRecords lines limit, k ∈ fs.keys) ∧
    (∀ (lines : List Line) (limit : Nat) (f : String),
      f ∈ (analyzeData lines limit).fieldEmptiness.map Prod.fst ↔
        ∃ fs ∈ parsedRecords lines, f ∈ (gfsFields fs "").1) ∧
    schemaPropertyKeys (analyzeData lines11 5).schema = ["a", "b"] ∧
    (analyzeData lines11 5).fieldEmptiness.map Prod.fst = ["a", "b", "c"] := by
  refine ⟨?_, ?_, ?_, ?_⟩
  · intro lines limit k
    have hb := processLines_builder limit lines initState
    have hsample : takeSample limit initState.recordCount (parsedRecords lines)
        = sampledRecords lines limit := by
      simp [takeSample, sampledRecords, initState]
    simp only [analyzeData]
    by_cases h : 0 < (processLines limit lines initState).recordCount
    · rw [if_pos h, schemaPropertyKeys_toSchema, hb, hsample,
        mem_keys_addMany]
      simp only [initState, PropMap.keys, List.not_mem_nil, false_or]
      exact (and_iff_right h).symm
    · rw [if_neg h]
      simp only [schemaPropertyKeys, JFields.lookup]
      simp [h]
  · intro lines limit f
    simp only [analyzeData, map_fst_map_pair]
    rw [processLines_allFields]
    simp [initState]
  · decide
  · decide

/-! ### Shape of the field paths produced by `getFieldStatus`

Every path recorded below a field's own path extends it with a `.` (nested
object key) or a `[` (array marker), which pins down exactly which record
values can make a clean top-level key present. -/

/-- Path `x` strictly extends path `p` through a `.` or `[` separator. -/
def strictExt (x p : String) : Prop :=
  ∃ c cs, x.data = p.data ++ c :: cs ∧ (c = '.' ∨ c = '[')

theorem mkPath_data {p k : String} (hp : p ≠ "") :
    (mkPath p k).data = p.data ++ '.' :: k.data := by
  simp [mkPath, hp, String.data_append]

theorem strictExt_mkPath_left {x p k : String} (hp : p ≠ "")
    (h : x = mkPath p k) : strictExt x p := by
  refine ⟨'.', k.data, ?_, Or.inl rfl⟩
  rw [h]
  exact mkPath_data hp

theorem strictExt_mkPath_trans {x p k : String} (hp : p ≠ "")
    (h : strictExt x (mkPath p k)) : strictExt x p := by
  obtain ⟨c, cs, hdata, _⟩ := h
  refine ⟨'.', k.data ++ c :: cs, ?_, Or.inl rfl⟩
  rw [hdata, mkPath_data hp]
  simp

theorem arrMark_ne_empty (p : String) : p ++ "[]" ≠ "" := by
  intro h
  have hd : (p ++ "[]").data = [] := by rw [h]
  rw [String.data_append] at hd
  simp at hd

theorem strictExt_arrMark_trans {x p : String}
    (h : strictExt x (p ++ "[]")) : strictExt x p := by
  obtain ⟨c, cs, hdata, _⟩ := h
  refine ⟨'[', ']' :: c :: cs, ?_, Or.inr rfl⟩
  rw [hdata, String.data_append]
  have hbr : ("[]" : String).data = ['[', ']'] := rfl
  rw [hbr]
  simp

mutual
theorem gfsVal_present_shape :
    ∀ (v : JValue) (path : String), path ≠ "" →
    ∀ x ∈ (gfsVal v path).2,
      (x = path ∧ isEmptyValue v = false) ∨ strictExt x path
  | .null, path, _, x, hx => absurd hx (List.not_mem_nil x)
  | .bool b, path, _, x, hx => by
    have hx' : x = path := by simpa [gfsVal] using hx
    exact Or.inl ⟨hx', rfl⟩
  | .num n, path, _, x, hx => by
    have hx' : x = path := by simpa [gfsVal] using hx
    exact Or.inl ⟨hx', rfl⟩
  | .str s, path, _, x, hx => by
    by_cases hb : isBlank s
    · rw [gfsVal, if_pos hb] at hx
      exact absurd hx (List.not_mem_nil x)
    · rw [gfsVal, if_neg hb] at hx
      have hx' : x = path := by simpa using hx
      have hbf : isBlank s = false := by simpa using hb
      exact Or.inl ⟨hx', hbf⟩
  | .obj .nil, path, _, x, hx => absurd hx (List.not_mem_nil x)
  | .obj (.cons k v t), path, hp, x, hx => by
    simp only [gfsVal] at hx
    rcases List.mem_cons.mp hx with rfl | hnest
    · exact Or.inl ⟨rfl, rfl⟩
    · obtain ⟨k', v', _, hshape⟩ :=
        gfsFields_present_shape (.cons k v t) path (Or.inr hp) x hnest
      rcases hshape with ⟨rfl, _⟩ | hext
      · exact Or.inr (strictExt_mkPath_left hp rfl)
      · exact Or.inr (strictExt_mkPath_trans hp hext)
  | .arr .nil, path, _, x, hx => absurd hx (List.not_mem_nil x)
  | .arr (.cons (.obj f0) t), path, hp, x, hx => by
    simp only [gfsVal] at hx
    rcases List.mem_cons.mp hx with rfl | hnest
    · exact Or.inl ⟨rfl, rfl⟩
    · exact Or.inr (gfsArr_present_shape (.cons (.obj f0) t) path x hnest)
  | .arr (.cons .null t), path, _, x, hx => by
    have hx' : x = path := by simpa [gfsVal] using hx
    exact Or.inl ⟨hx', rfl⟩
  | .arr (.cons (.bool b) t), path, _, x, hx => by
    have hx' : x = path := by simpa [gfsVal] using hx
    exact Or.inl ⟨hx', rfl⟩
  | .arr (.cons (.num n) t), path, _, x, hx => by
    have hx' : x = path := by simpa [gfsVal] using hx
    exact Or.inl ⟨hx', rfl⟩
  | .arr (.cons (.str s) t), path, _, x, hx => by
    have hx' : x = path := by simpa [gfsVal] using hx
    exact Or.inl ⟨hx', rfl⟩
  | .arr (.cons (.arr ys) t), path, _, x, hx => by
    have hx' : x = path := by simpa [gfsVal] using hx
    exact Or.inl ⟨hx', rfl⟩
theorem gfsFields_present_shape :
    ∀ (fs : JFields) (pfx : String), ("" ∉ fs.keys ∨ pfx ≠ "") →
    ∀ x ∈ (gfsFields fs pfx).2,
      ∃ k v, (k, v) ∈ fs.toList ∧
        ((x = mkPath pfx k ∧ isEmptyValue v = false) ∨
          strictExt x (mkPath pfx k))
  | .nil, pfx, _, x, hx => absurd hx (List.not_mem_nil x)
  | .cons k v t, pfx, hne, x, hx => by
    simp only [gfsFields] at hx
    rcases List.mem_append.mp hx with hval | hrest
    · have hpathne : mkPath pfx k ≠ "" := by
        by_cases hp0 : pfx = ""
        · have hkne : k ≠ "" := by
            rcases hne with hk | hp
            · intro hk0
              exact hk (hk0 ▸ List.mem_cons_self k _)
            · exact absurd hp0 hp
          simpa [mkPath, hp0] using hkne
        · simp only [mkPath, if_neg hp0]
          intro h0
          have hd : (pfx ++ "." ++ k).data = [] := by rw [h0]
          simp [String.data_append] at hd
      rcases gfsVal_present_shape v (mkPath pfx k) hpathne x hval with
        ⟨rfl, hempf⟩ | hext
      · exact ⟨k, v, by simp [JFields.toList], Or.inl ⟨rfl, hempf⟩⟩
      · exact ⟨k, v, by simp [JFields.toList], Or.inr hext⟩
    · have hne' : "" ∉ t.keys ∨ pfx ≠ "" := by
        rcases hne with hk | hp
        · exact Or.inl fun hmem => hk (List.mem_cons_of_mem _ hmem)
        · exact Or.inr hp
      obtain ⟨k', v', hmem, hshape⟩ :=
        gfsFields_present_shape t pfx hne' x hrest
      exact ⟨k', v', by simp [JFields.toList, hmem], hshape⟩
theorem gfsArr_present_shape :
    ∀ (xs : JList) (path : String),
    ∀ x ∈ (gfsArr xs path).2, strictExt x path
  | .nil, path, x, hx => absurd hx (List.not_mem_nil x)
  | .cons (.obj fs) t, path, x, hx => by
    simp only [gfsArr] at hx
    rcases List.mem_append.mp hx with hitem | hrest
    · obtain ⟨k, v, _, hshape⟩ := gfsFields_present_shape fs (path ++ "[]")
        (Or.inr (arrMark_ne_empty path)) x hitem
      rcases hshape with ⟨rfl, _⟩ | hext
      · exact strictExt_arrMark_trans
          (strictExt_mkPath_left (arrMark_ne_empty path) rfl)
      · exact strictExt_arrMark_trans
          (strictExt_mkPath_trans (arrMark_ne_empty path) hext)
    · exact gfsArr_present_shape t path x hrest
  | .cons .null t, path, x, hx => by
    refine gfsArr_present_shape t path x ?_
    simpa [gfsArr] using hx
  | .cons (.bool b) t, path, x, hx => by
    refine gfsArr_present_shape t path x ?_
    simpa [gfsArr] using hx
  | .cons (.num n) t, path, x, hx => by
    refine gfsArr_present_shape t path x ?_
    simpa [gfsArr] using hx
  | .cons (.str s) t, path, x, hx => by
    refine gfsArr_present_shape t path x ?_
    simpa [gfsArr] using hx
  | .cons (.arr ys) t, path, x, hx => by
    refine gfsArr_present_shape t path x ?_
    simpa [gfsArr] using hx
end

/-! ### Positive membership lemmas for `getFieldStatus` -/

/-- A non-empty value puts its own path into the present set. -/
theorem gfsVal_self_present :
    ∀ (v : JValue) (path : String), isEmptyValue v = false →
      path ∈ (gfsVal v path).2
  | .null, _, hemp => by simp [isEmptyValue] at hemp
  | .bool b, path, _ => by simp [gfsVal]
  | .num n, path, _ => by simp [gfsVal]
  | .str s, path, hemp => by
    have hb : isBlank s = false := hemp
    simp [gfsVal, hb]
  | .obj .nil, _, hemp => by simp [isEmptyValue, JFields.isEmpty] at hemp
  | .obj (.cons k v t), path, _ => by simp [gfsVal]
  | .arr .nil, _, hemp => by simp [isEmptyValue, JList.isEmpty] at hemp
  | .arr (.cons (.obj f0) t), path, _ => by simp [gfsVal]
  | .arr (.cons .null t), path, _ => by simp [gfsVal]
  | .arr (.cons (.bool b) t), path, _ => by simp [gfsVal]
  | .arr (.cons (.num n) t), path, _ => by simp [gfsVal]
  | .arr (.cons (.str s) t), path, _ => by simp [gfsVal]
  | .arr (.cons (.arr ys) t), path, _ => by simp [gfsVal]

/-- Every key of an object contributes its path to the discovered set. -/
theorem mkPath_mem_all :
    ∀ (fs : JFields) (pfx k : String), k ∈ fs.keys →
      mkPath pfx k ∈ (gfsFields fs pfx).1
  | .nil, _, _, hk => absurd hk (List.not_mem_nil _)
  | .cons k' v t, pfx, k, hk => by
    simp only [JFields.keys, List.mem_cons] at hk
    simp only [gfsFields, List.mem_cons, List.mem_append]
    rcases hk with rfl | hk
    · exact Or.inl rfl
    · exact Or.inr (Or.inr (mkPath_mem_all t pfx k hk))

/-- An entry's value contributes all of its discovered and present paths. -/
theorem gfsFields_contrib :
    ∀ (fs : JFields) (pfx k : String) (v : JValue), (k, v) ∈ fs.toList →
      (∀ x ∈ (gfsVal v (mkPath pfx k)).1, x ∈ (gfsFields fs pfx).1) ∧
      (∀ x ∈ (gfsVal v (mkPath pfx k)).2, x ∈ (gfsFields fs pfx).2)
  | .nil, _, _, _, hmem => absurd hmem (List.not_mem_nil _)
  | .cons k' v' t, pfx, k, v, hmem => by
    simp only [JFields.toList, List.mem_cons] at hmem
    rcases hmem with heq | hmem
    · obtain ⟨rfl, rfl⟩ := Prod.mk.injEq .. ▸ heq
      constructor
      · intro x hx
        simp only [gfsFields, List.mem_cons, List.mem_append]
        exact Or.inr (Or.inl hx)
      · intro x hx
        simp only [gfsFields, List.mem_append]
        exact Or.inl hx
    · obtain ⟨h1, h2⟩ := gfsFields_contrib t pfx k v hmem
      constructor
      · intro x hx
        simp only [gfsFields, List.mem_cons, List.mem_append]
        exact Or.inr (Or.inr (h1 x hx))
      · intro x hx
        simp only [gfsFields, List.mem_append]
        exact Or.inr (h2 x hx)

/-- The contribution of one array element to `getFieldStatus`: object
elements are traversed under the array-marker path, others are skipped. -/
def itemStatus (path : String) : JValue → List String × List String
  | .obj fs => gfsFields fs (path ++ "[]")
  | _ => ([], [])

theorem gfsArr_cons (h : JValue) (t : JList) (path : String) :
    gfsArr (.cons h t) path
      = ((itemStatus path h).1 ++ (gfsArr t path).1,
         (itemStatus path h).2 ++ (gfsArr t path).2) := by
  cases h <;> rfl

/-- An object element of an array contributes all of its paths (under the
array-marker prefix) to the array's contribution. -/
theorem gfsArr_contrib :
    ∀ (xs : JList) (path : String) (m : JFields), JValue.obj m ∈ xs.toList →
      (∀ x ∈ (gfsFields m (path ++ "[]")).1, x ∈ (gfsArr xs path).1) ∧
      (∀ x ∈ (gfsFields m (path ++ "[]")).2, x ∈ (gfsArr xs path).2)
  | .nil, _, _, hmem => absurd hmem (List.not_mem_nil _)
  | .cons h t, path, m, hmem => by
    rw [gfsArr_cons]
    simp only [JList.toList, List.mem_cons] at hmem
    rcases hmem with heq | hmem
    · subst heq
      constructor
      · intro x hx
        exact List.mem_append_left _ (by simpa [itemStatus] using hx)
      · intro x hx
        exact List.mem_append_left _ (by simpa [itemStatus] using hx)
    · obtain ⟨h1, h2⟩ := gfsArr_contrib t path m hmem
      exact ⟨fun x hx => List.mem_append_right _ (h1 x hx),
        fun x hx => List.mem_append_right _ (h2 x hx)⟩

/-- For a non-empty array whose first element is an object, the array value's
status is its own path plus the per-element traversal. -/
theorem gfsVal_arr_obj_head (f0 : JFields) (t : JList) (path : String) :
    gfsVal (.arr (.cons (.obj f0) t)) path
      = ((gfsArr (.cons (.obj f0) t) path).1,
          path :: (gfsArr (.cons (.obj f0) t) path).2) := rfl

/-- An entry's key is among the object's keys. -/
theorem key_mem_keys_of_mem_toList :
    ∀ (fs : JFields) (k : String) (v : JValue),
      (k, v) ∈ fs.toList → k ∈ fs.keys
  | .nil, _, _, hmem => absurd hmem (List.not_mem_nil _)
  | .cons k' v' t, k, v, hmem => by
    simp only [JFields.toList, List.mem_cons] at hmem
    simp only [JFields.keys, List.mem_cons]
    rcases hmem with heq | hmem
    · exact Or.inl (congrArg Prod.fst heq)
    · exact Or.inr (key_mem_keys_of_mem_toList t k v hmem)

/-- Over duplicate-free keys, entry membership and map lookup agree. -/
theorem mem_toList_iff_lookup :
    ∀ (fs : JFields) (k : String) (v : JValue), fs.keys.Nodup →
      ((k, v) ∈ fs.toList ↔ fs.lookup k = Option.some v)
  | .nil, _, _, _ => by simp [JFields.toList, JFields.lookup]
  | .cons k' v' t, k, v, hnd => by
    have hk't : k' ∉ t.keys := (List.nodup_cons.mp hnd).1
    have hndt : t.keys.Nodup := (List.nodup_cons.mp hnd).2
    simp only [JFields.toList, List.mem_cons, JFields.lookup]
    by_cases hk : k = k'
    · subst hk
      rw [if_pos rfl]
      constructor
      · rintro (heq | hmem)
        · obtain ⟨-, rfl⟩ := Prod.mk.injEq .. ▸ heq
          rfl
        · exact absurd (key_mem_keys_of_mem_toList t k v hmem) hk't
      · intro hsome
        exact Or.inl (by simpa using hsome.symm)
    · rw [if_neg hk]
      rw [← mem_toList_iff_lookup t k v hndt]
      constructor
      · rintro (heq | hmem)
        · exact absurd (congrArg Prod.fst heq) hk
        · exact hmem
      · exact Or.inr

theorem mkPath_empty (k : String) : mkPath "" k = k := rfl

/-- Presence characterization for a clean top-level key: the path is present
in a record iff the record maps it to a non-empty value (absent keys are not
present; zero, `false` and non-blank strings are present). -/
theorem presentInRecord_iff (fs : JFields) (k : String)
    (hnd : fs.keys.Nodup) (hempty : "" ∉ fs.keys)
    (hdot : '.' ∉ k.data) (hbr : '[' ∉ k.data) :
    presentInRecord fs k ↔
      ∃ v, fs.lookup k = Option.some v ∧ isEmptyValue v = false := by
  constructor
  · intro hp
    obtain ⟨k', v', hmem, hshape⟩ :=
      gfsFields_present_shape fs "" (Or.inl hempty) k hp
    rw [mkPath_empty] at hshape
    rcases hshape with ⟨heq, hempf⟩ | hext
    · refine ⟨v', ?_, hempf⟩
      rw [heq]
      exact (mem_toList_iff_lookup fs k' v' hnd).mp hmem
    · exfalso
      obtain ⟨c, cs, hdata, hc⟩ := hext
      rcases hc with rfl | rfl
      · exact hdot (by rw [hdata]; simp)
      · exact hbr (by rw [hdata]; simp)
  · rintro ⟨v, hlook, hempf⟩
    have hmem := (mem_toList_iff_lookup fs k v hnd).mpr hlook
    have hsub := (gfsFields_contrib fs "" k v hmem).2
    have hself := gfsVal_self_present v (mkPath "" k) hempf
    have := hsub _ hself
    exact this

/-- The tracked field list stays duplicate-free across the scan. -/
theorem processLines_allFields_nodup (limit : Nat) (lines : List Line)
    (st : AnalyzeState) (hnd : st.allFields.Nodup) :
    (processLines limit lines st).allFields.Nodup := by
  induction lines generalizing st with
  | nil => exact hnd
  | cons l rest ih =>
    cases l with
    | blank => exact ih st hnd
    | malformed => exact ih _ hnd
    | record fs => exact ih _ (nodup_insertAll hnd _)

theorem lookup_map_pair {β : Type} (l : List String) (g : String → β)
    (f : String) (hnd : l.Nodup) (hf : f ∈ l) :
    (l.map fun x => (x, g x)).lookup f = Option.some (g f) := by
  induction l with
  | nil => exact absurd hf (List.not_mem_nil f)
  | cons x xs ih =>
    have hx : x ∉ xs := (List.nodup_cons.mp hnd).1
    have hxs : xs.Nodup := (List.nodup_cons.mp hnd).2
    rcases List.mem_cons.mp hf with rfl | hf'
    · simp [List.lookup]
    · have hfx : (f == x) = false := beq_false_of_ne (by
        rintro rfl
        exact hx hf')
      simp only [List.map_cons, List.lookup, hfx]
      exact ih hxs hf'

/-- The spec's emptiness-arithmetic example: three records in which field
`x` is present in exactly one (`5` is present; `null` and absence are
not). -/
def linesOneOfThree : List Line :=
  [.record (.cons "x" (.num 5) .nil),
   .record (.cons "x" .null .nil),
   .record .nil]

/-- C8: emptiness arithmetic.  (a) With at least one parsed record, every
discovered field path reports
`roundTo2Decimals ((recordCount - presentCount) / recordCount * 100)` where
`presentCount` counts the parsed records in which the path is present;
(b) a record counts a clean top-level path as present iff it maps the key to
a value that is not null, not a whitespace-only string, not an empty array
and not an empty object (so absent keys are not present, and zero, `false`
and non-blank strings are present); (c) `isEmptyValue` holds exactly for
null, blank strings, empty arrays and empty objects; (d) three records with
the field present in exactly one yield `66.67`. -/
theorem analyzeData_emptiness :
    (∀ (lines : List Line) (limit : Nat) (f : String),
      0 < (analyzeData lines limit).recordCount →
      f ∈ (analyzeData lines limit).fieldEmptiness.map Prod.fst →
      (analyzeData lines limit).fieldEmptiness.lookup f
        = Option.some (roundTo2Decimals
            ((((analyzeData lines limit).recordCount : ℚ) -
                presentCountIn lines f) /
              (analyzeData lines limit).recordCount * 100))) ∧
    (∀ (fs : JFields) (k : String), fs.keys.Nodup → "" ∉ fs.keys →
      '.' ∉ k.data → '[' ∉ k.data →
      (presentInRecord fs k ↔
        ∃ v, fs.lookup k = Option.some v ∧ isEmptyValue v = false)) ∧
    (∀ v : JValue, isEmptyValue v = true ↔
      (v = .null ∨ (∃ s, v = .str s ∧ isBlank s = true) ∨
        v = .arr .nil ∨ v = .obj .nil)) ∧
    (analyzeData linesOneOfThree 0).fieldEmptiness.lookup "x"
      = Option.some (6667 / 100) := by
  refine ⟨?_, ?_, ?_, ?_⟩
  · intro lines limit f hrc hf
    have hnd : (processLines limit lines initState).allFields.Nodup :=
      processLines_allFields_nodup limit lines initState (by simp [initState])
    have hpc := processLines_presentCount limit lines initState f
    simp only [analyzeData, map_fst_map_pair] at hf hrc ⊢
    rw [lookup_map_pair _ _ f hnd hf, if_pos hrc]
    rw [hpc]
    simp [initState, countOf]
  · intro fs k hnd hempty hdot hbr
    exact presentInRecord_iff fs k hnd hempty hdot hbr
  · intro v
    cases v with
    | null => simp [isEmptyValue]
    | bool b => simp [isEmptyValue]
    | num n => simp [isEmptyValue]
    | str s => simp [isEmptyValue]
    | arr xs => cases xs <;> simp [isEmptyValue, JList.isEmpty]
    | obj fs => cases fs <;> simp [isEmptyValue, JFields.isEmpty]
  · have h1 : (processLines 0 linesOneOfThree initState).allFields = ["x"] := by
      decide
    have h2 : (processLines 0 linesOneOfThree initState).recordCount = 3 := by
      decide
    have h3 : countOf (processLines 0 linesOneOfThree initState).presentCount "x"
        = 1 := by decide
    simp only [analyzeData, h1, h2, h3, List.map_cons, List.map_nil]
    rw [if_pos (by norm_num)]
    simp only [List.lookup, beq_self_eq_true]
    norm_num [roundTo2Decimals, goTrunc]

theorem analyzeData_emptiness_witness :
    (analyzeData linesOneOfThree 0).fieldEmptiness.lookup "x"
      = Option.some (roundTo2Decimals
          ((((analyzeData linesOneOfThree 0).recordCount : ℚ) -
              presentCountIn linesOneOfThree "x") /
            (analyzeData linesOneOfThree 0).recordCount * 100)) ∧
    (presentInRecord (.cons "x" (.num 5) .nil) "x" ↔
      ∃ v, JFields.lookup (.cons "x" (.num 5) .nil) "x" = Option.some v ∧
        isEmptyValue v = false) :=
  ⟨analyzeData_emptiness.1 linesOneOfThree 0 "x" (by decide) (by decide),
   analyzeData_emptiness.2.1 (.cons "x" (.num 5) .nil) "x" (by decide)
     (by decide) (by decide) (by decide)⟩

/-! ### Array traversal behaviour of `getFieldStatus` -/

/-- The spec's array example `{"items": [{"id": 1}, {"id": 2}]}`. -/
def itemsTwoObjects : JFields :=
  .cons "items" (.arr (.cons (.obj (.cons "id" (.num 1) .nil))
    (.cons (.obj (.cons "id" (.num 2) .nil)) .nil))) .nil

/-- The spec's empty-array example `{"items": []}`. -/
def itemsEmptyArr : JFields := .cons "items" (.arr .nil) .nil

/-- A mixed array `{"items": [1, {"id": 2}]}`: the first element is not an
object. -/
def itemsMixedArr : JFields :=
  .cons "items" (.arr (.cons (.num 1)
    (.cons (.obj (.cons "id" (.num 2) .nil)) .nil))) .nil

/-- C9 counterexample: in `{"items": [1, {"id": 2}]}` the field `items` holds
a non-empty array with an object element carrying key `id`, yet
`getFieldStatus` records neither `items[].id` as discovered nor anything
below `items`, because the traversal is gated on the FIRST array element
being an object — refuting the claim that every element of a non-empty array
is traversed and its object keys appear under the marker path. -/
theorem getFieldStatus_mixed_array_not_traversed :
    itemsMixedArr.lookup "items"
      = Option.some (.arr (.cons (.num 1)
          (.cons (.obj (.cons "id" (.num 2) .nil)) .nil))) ∧
    JValue.obj (.cons "id" (.num 2) .nil)
      ∈ (JList.cons (JValue.num 1)
          (.cons (.obj (.cons "id" (.num 2) .nil)) .nil)).toList ∧
    "items" ∈ (gfsFields itemsMixedArr "").1 ∧
    "items" ∈ (gfsFields itemsMixedArr "").2 ∧
    "items[].id" ∉ (gfsFields itemsMixedArr "").1 ∧
    "items[].id" ∉ (gfsFields itemsMixedArr "").2 := by
  decide

/-- C9 amended: array paths in `getFieldStatus`.  (a) A field holding a
non-empty array whose FIRST element is an object contributes its own dotted
path, and every OBJECT element of the array is traversed under the path
suffixed with the `[]` marker, its keys appearing there (non-object elements
are skipped; nothing is traversed when the first element is not an object);
(b) a field holding an empty array still contributes its own path;
(c) `{"items": [{"id": 1}, {"id": 2}]}` discovers `items` and `items[].id`;
(d) `{"items": []}` discovers exactly `items` and marks nothing present. -/
theorem getFieldStatus_array_paths :
    (∀ (fs : JFields) (pfx k : String) (f0 : JFields) (t : JList),
      (k, JValue.arr (.cons (.obj f0) t)) ∈ fs.toList →
      mkPath pfx k ∈ (gfsFields fs pfx).1 ∧
      (∀ m : JFields,
        JValue.obj m ∈ (JList.cons (JValue.obj f0) t).toList →
        ∀ k' ∈ m.keys,
          mkPath (mkPath pfx k ++ "[]") k' ∈ (gfsFields fs pfx).1)) ∧
    (∀ (fs : JFields) (pfx k : String),
      (k, JValue.arr .nil) ∈ fs.toList →
      mkPath pfx k ∈ (gfsFields fs pfx).1) ∧
    ("items" ∈ (gfsFields itemsTwoObjects "").1 ∧
      "items[].id" ∈ (gfsFields itemsTwoObjects "").1) ∧
    ((gfsFields itemsEmptyArr "").1 = ["items"] ∧
      (gfsFields itemsEmptyArr "").2 = []) := by
  refine ⟨?_, ?_, ?_, ?_⟩
  · intro fs pfx k f0 t hmem
    constructor
    · exact mkPath_mem_all fs pfx k (key_mem_keys_of_mem_toList fs k _ hmem)
    · intro m hm k' hk'
      have step1 : mkPath (mkPath pfx k ++ "[]") k'
          ∈ (gfsFields m (mkPath pfx k ++ "[]")).1 :=
        mkPath_mem_all m _ k' hk'
      have step2 := (gfsArr_contrib (.cons (.obj f0) t) (mkPath pfx k) m hm).1
        _ step1
      have step3 : mkPath (mkPath pfx k ++ "[]") k'
          ∈ (gfsVal (.arr (.cons (.obj f0) t)) (mkPath pfx k)).1 := by
        rw [gfsVal_arr_obj_head]
        exact step2
      exact (gfsFields_contrib fs pfx k _ hmem).1 _ step3
  · intro fs pfx k hmem
    exact mkPath_mem_all fs pfx k (key_mem_keys_of_mem_toList fs k _ hmem)
  · exact ⟨by decide, by decide⟩
  · exact ⟨by decide, by decide⟩

theorem getFieldStatus_array_paths_witness :
    mkPath "" "items" ∈ (gfsFields itemsTwoObjects "").1 ∧
    mkPath (mkPath "" "items" ++ "[]") "id" ∈ (gfsFields itemsTwoObjects "").1 ∧
    mkPath "" "items" ∈ (gfsFields itemsEmptyArr "").1 :=
  ⟨(getFieldStatus_array_paths.1 itemsTwoObjects "" "items"
      (.cons "id" (.num 1) .nil)
      (.cons (.obj (.cons "id" (.num 2) .nil)) .nil) (by decide)).1,
   (getFieldStatus_array_paths.1 itemsTwoObjects "" "items"
      (.cons "id" (.num 1) .nil)
      (.cons (.obj (.cons "id" (.num 2) .nil)) .nil) (by decide)).2
      (.cons "id" (.num 2) .nil) (by decide) "id" (by decide),
   getFieldStatus_array_paths.2.1 itemsEmptyArr "" "items" (by decide)⟩

end Helix
